import Mathlib

/-!
Verification of `chebyshev.py`: polynomial evaluation (Horner), weighted
linear combinations of polynomials, generation of Chebyshev polynomials in
the monomial basis, and the generalized Clenshaw evaluator.

Scalars are modelled as `ℚ` (exact arithmetic; the Python code manipulates
numbers with `+`, `*`, `-` only, so on integer-valued inputs the float and
rational semantics agree). A polynomial is a list of coefficients, index i
holding the degree-i coefficient. Python's fallible indexing
(`coefficients[0]` on a possibly-empty list) is modelled with `Option`:
`none` corresponds to an `IndexError`.
-/

namespace Chebyshev

/-- Function poly_eval from the source: Horner evaluation.
`acc = 0; for c in reversed(poly): acc = acc * x + c; return acc`. -/
def poly_eval (poly : List ℚ) (x : ℚ) : ℚ :=
  poly.reverse.foldl (fun acc c => acc * x + c) 0

/-- Length of the longest polynomial in the list; `zip_longest(*polys)`
produces exactly this many transposed tuples. -/
def maxLen (polys : List (List ℚ)) : ℕ :=
  (polys.map List.length).foldr max 0

/-- Function linear_combination from the source.
`assert len(weights) == len(polys)` is modelled as the `none` branch.
The `some` branch is the transposed weighted sum: for each degree index `j`
below the longest length, `sum(c * x for (c, x) in zip(weights, coeffs))`
where `coeffs` is the tuple of the `j`-th coefficients padded with 0. -/
def linear_combination (polys : List (List ℚ)) (weights : List ℚ) :
    Option (List ℚ) :=
  if weights.length = polys.length then
    some ((List.range (maxLen polys)).map (fun j =>
      ((weights.zip (polys.map (fun coeffs => coeffs.getD j 0))).map
        (fun cx => cx.1 * cx.2)).sum))
  else none

/-- Python's `zip_longest(xs, ys, fillvalue=0)` mapped through `f`. -/
def zipLongestWith (f : ℚ → ℚ → ℚ) : List ℚ → List ℚ → List ℚ
  | [], bs => bs.map (fun y => f 0 y)
  | x :: xs, [] => f x 0 :: zipLongestWith f xs []
  | x :: xs, y :: ys => f x y :: zipLongestWith f xs ys

/-- The loop body of `generate_chebyshev_polynomials`:
`x_k_minus_1 = [0] + polynomials[-1]` and
`[2 * x - y for (x, y) in zip_longest(x_k_minus_1, k_minus_2, fillvalue=0)]`. -/
def cheb_next (lst second_lst : List ℚ) : List ℚ :=
  zipLongestWith (fun x y => 2 * x - y) (0 :: lst) second_lst

/-- The `for i in range(2, count)` loop of `generate_chebyshev_polynomials`,
carrying the last two polynomials produced; returns the list of appended
polynomials (T_2 onward). -/
def cheb_loop : ℕ → List ℚ → List ℚ → List (List ℚ)
  | 0, _, _ => []
  | n + 1, second_lst, lst =>
      cheb_next lst second_lst :: cheb_loop n lst (cheb_next lst second_lst)

/-- Function generate_chebyshev_polynomials from the source. In Python `count` is an
`int` and every `count < 1` (all nonpositive values) returns `[]`; with
`count : ℕ` that branch is `count = 0`. -/
def generate_chebyshev_polynomials (count : ℕ) : List (List ℚ) :=
  if count < 1 then []
  else if count ≤ 2 then ([[1], [0, 2]] : List (List ℚ)).take count
  else [[1], [0, 2]] ++ cheb_loop (count - 2) [1] [0, 2]

/-- Function clenshaw_eval from the source. The loop
`for c in reversed(coefficients[1:]): b = (c + alpha_x*b[0] + beta_x*b[1], b[0])`
is the `foldl` below; the final read of `coefficients[0]` raises `IndexError`
on an empty list, modelled by the `none` branch. -/
def clenshaw_eval (coefficients : List ℚ) (value : ℚ)
    (basis_0 basis_1 alpha beta : List ℚ) : Option ℚ :=
  let alpha_x := poly_eval alpha value
  let beta_x := poly_eval beta value
  let basis_0_x := poly_eval basis_0 value
  let basis_1_x := poly_eval basis_1 value
  let b := ((coefficients.drop 1).reverse).foldl
    (fun b c => (c + alpha_x * b.1 + beta_x * b.2, b.1)) ((0 : ℚ), (0 : ℚ))
  match coefficients.head? with
  | none => none
  | some c0 => some (basis_0_x * c0 + basis_1_x * b.1 + beta_x * basis_0_x * b.2)

/-- Function cheb_eval from the source: the Chebyshev façade.
`basis = generate_chebyshev_polynomials(count=2); alpha = [0, 2]; beta = [-1]`. -/
def cheb_eval (coefficients : List ℚ) (x : ℚ) : Option ℚ :=
  let basis := generate_chebyshev_polynomials 2
  clenshaw_eval coefficients x (basis.getD 0 []) (basis.getD 1 []) [0, 2] [-1]

/-! Specification-side definitions used to state the claims. -/

/-- The naive reference value `sum_i p_i * x^i`. -/
def naive_eval (p : List ℚ) (x : ℚ) : ℚ :=
  ∑ i in Finset.range p.length, p.getD i 0 * x ^ i

/-- The scalar basis values T_k(x) generated by the three-term recurrence
T_k = alpha(x)·T_{k-1} + beta(x)·T_{k-2} from seeds T_0(x), T_1(x). -/
def Tval (t0 t1 a b : ℚ) : ℕ → ℚ
  | 0 => t0
  | 1 => t1
  | k + 2 => a * Tval t0 t1 a b (k + 1) + b * Tval t0 t1 a b k

/-- The Chebyshev polynomials (in the source's `2x` seed convention) as a
recursively defined family, used to reason about the generator's loop. -/
def chebT : ℕ → List ℚ
  | 0 => [1]
  | 1 => [0, 2]
  | k + 2 => cheb_next (chebT (k + 1)) (chebT k)

/-- Structural version of the Clenshaw loop: processing the list right to
left, returning the rolling pair (b_1, b_2) for the coefficient list
c_1..c_{n-1}. -/
def clenshawPair (a b : ℚ) : List ℚ → ℚ × ℚ
  | [] => (0, 0)
  | c :: cs =>
      (c + a * (clenshawPair a b cs).1 + b * (clenshawPair a b cs).2,
       (clenshawPair a b cs).1)

/-! Helper lemmas. -/

theorem poly_eval_nil (x : ℚ) : poly_eval [] x = 0 := rfl

theorem poly_eval_cons (c : ℚ) (cs : List ℚ) (x : ℚ) :
    poly_eval (c :: cs) x = c + x * poly_eval cs x := by
  simp only [poly_eval, List.reverse_cons, List.foldl_append, List.foldl_cons,
    List.foldl_nil]
  ring

theorem naive_eval_cons (c : ℚ) (cs : List ℚ) (x : ℚ) :
    naive_eval (c :: cs) x = c + x * naive_eval cs x := by
  unfold naive_eval
  rw [List.length_cons, Finset.sum_range_succ']
  simp only [List.getD_cons_succ, List.getD_cons_zero, pow_zero, mul_one, pow_succ]
  rw [Finset.mul_sum, add_comm]
  congr 1
  exact Finset.sum_congr rfl (fun i _ => by ring)

theorem poly_eval_eq_naive (p : List ℚ) (x : ℚ) : poly_eval p x = naive_eval p x := by
  induction p with
  | nil => simp [poly_eval, naive_eval]
  | cons c cs ih => rw [poly_eval_cons, naive_eval_cons, ih]

theorem naive_eval_extend (p : List ℚ) (x : ℚ) (m : ℕ) (h : p.length ≤ m) :
    ∑ i in Finset.range m, p.getD i 0 * x ^ i = naive_eval p x := by
  unfold naive_eval
  symm
  apply Finset.sum_subset (Finset.range_subset.mpr h)
  intro i _ hi
  rw [List.getD_eq_default _ _ (by simp at hi; omega)]
  ring

theorem clenshawPair_eq_foldl (a bt : ℚ) (l : List ℚ) :
    l.reverse.foldl (fun b c => (c + a * b.1 + bt * b.2, b.1)) ((0 : ℚ), (0 : ℚ)) =
      clenshawPair a bt l := by
  induction l with
  | nil => rfl
  | cons c cs ih =>
      rw [List.reverse_cons, List.foldl_append, ih]
      rfl

theorem Tval_shift (t0 t1 a b : ℚ) (m : ℕ) :
    Tval t1 (a * t1 + b * t0) a b m = Tval t0 t1 a b (m + 1) := by
  induction m using Nat.twoStepInduction with
  | zero => rfl
  | one => rfl
  | more m ih1 ih2 =>
      simp only [Tval]
      rw [ih1, ih2]
      simp only [Tval]

theorem Tval_pow (x : ℚ) (k : ℕ) : Tval 1 x x 0 k = x ^ k := by
  induction k using Nat.twoStepInduction with
  | zero => simp [Tval]
  | one => simp [Tval]
  | more k ih1 ih2 =>
      simp only [Tval]
      rw [ih1, ih2, pow_succ, pow_succ]
      ring

theorem clenshaw_sum_aux (a b : ℚ) (l : List ℚ) :
    ∀ t0 t1 : ℚ,
      t1 * (clenshawPair a b l).1 + b * t0 * (clenshawPair a b l).2 =
        ∑ j in Finset.range l.length, l.getD j 0 * Tval t0 t1 a b (j + 1) := by
  induction l with
  | nil => intro t0 t1; simp [clenshawPair]
  | cons c cs ih =>
      intro t0 t1
      calc t1 * (clenshawPair a b (c :: cs)).1 + b * t0 * (clenshawPair a b (c :: cs)).2
          = t1 * c + ((a * t1 + b * t0) * (clenshawPair a b cs).1
              + b * t1 * (clenshawPair a b cs).2) := by
            simp only [clenshawPair]; ring
        _ = t1 * c + ∑ j in Finset.range cs.length,
              cs.getD j 0 * Tval t1 (a * t1 + b * t0) a b (j + 1) := by
            rw [← ih t1 (a * t1 + b * t0)]
        _ = ∑ j in Finset.range cs.length,
              cs.getD j 0 * Tval t0 t1 a b (j + 1 + 1) + c * Tval t0 t1 a b (0 + 1) := by
            rw [Finset.sum_congr rfl (fun j _ => by rw [Tval_shift])]
            simp only [Nat.zero_add, Tval]
            ring
        _ = ∑ j in Finset.range (c :: cs).length, (c :: cs).getD j 0 * Tval t0 t1 a b (j + 1) := by
            rw [List.length_cons, Finset.sum_range_succ']
            simp only [List.getD_cons_succ, List.getD_cons_zero]

theorem clenshaw_eval_sum (c0 : ℚ) (cs : List ℚ) (x : ℚ) (b0 b1 al bt : List ℚ) :
    clenshaw_eval (c0 :: cs) x b0 b1 al bt =
      some (∑ k in Finset.range (c0 :: cs).length, (c0 :: cs).getD k 0 *
        Tval (poly_eval b0 x) (poly_eval b1 x) (poly_eval al x) (poly_eval bt x) k) := by
  simp only [clenshaw_eval, List.drop_succ_cons, List.drop_zero, List.head?_cons]
  rw [clenshawPair_eq_foldl]
  congr 1
  rw [List.length_cons, Finset.sum_range_succ']
  simp only [List.getD_cons_succ, List.getD_cons_zero]
  rw [← clenshaw_sum_aux]
  simp only [Tval]
  ring

theorem zlw_nil_right (as : List ℚ) (x : ℚ) :
    poly_eval (zipLongestWith (fun u v => 2 * u - v) as []) x = 2 * poly_eval as x := by
  induction as with
  | nil => simp [zipLongestWith, poly_eval]
  | cons a tl ih =>
      simp only [zipLongestWith]
      rw [poly_eval_cons, poly_eval_cons, ih]
      ring

theorem zlw_nil_left (bs : List ℚ) (x : ℚ) :
    poly_eval (zipLongestWith (fun u v => 2 * u - v) [] bs) x = -poly_eval bs x := by
  induction bs with
  | nil => simp [zipLongestWith, poly_eval]
  | cons b tl ih =>
      simp only [zipLongestWith, List.map_cons] at ih ⊢
      rw [poly_eval_cons, poly_eval_cons, ih]
      ring

theorem zlw_eval (as : List ℚ) : ∀ (bs : List ℚ) (x : ℚ),
    poly_eval (zipLongestWith (fun u v => 2 * u - v) as bs) x =
      2 * poly_eval as x - poly_eval bs x := by
  induction as with
  | nil =>
      intro bs x
      rw [zlw_nil_left, poly_eval_nil]
      ring
  | cons a tl ih =>
      intro bs x
      cases bs with
      | nil =>
          rw [zlw_nil_right, poly_eval_nil]
          ring
      | cons b tlb =>
          simp only [zipLongestWith]
          rw [poly_eval_cons, poly_eval_cons, poly_eval_cons, ih]
          ring

theorem cheb_next_eval (p q : List ℚ) (x : ℚ) :
    poly_eval (cheb_next p q) x = 2 * (x * poly_eval p x) - poly_eval q x := by
  unfold cheb_next
  rw [zlw_eval, poly_eval_cons]
  ring

theorem chebT_eval (x : ℚ) (k : ℕ) :
    poly_eval (chebT k) x = Tval 1 (2 * x) (2 * x) (-1) k := by
  induction k using Nat.twoStepInduction with
  | zero => simp [chebT, poly_eval, Tval]
  | one => simp [chebT, poly_eval, Tval]
  | more k ih1 ih2 =>
      show poly_eval (cheb_next (chebT (k + 1)) (chebT k)) x = _
      rw [cheb_next_eval, ih1, ih2]
      simp only [Tval]
      ring

theorem cheb_loop_eq_map (m : ℕ) : ∀ k : ℕ,
    cheb_loop m (chebT k) (chebT (k + 1)) =
      (List.range m).map (fun j => chebT (k + 2 + j)) := by
  induction m with
  | zero => intro k; rfl
  | succ m ih =>
      intro k
      rw [List.range_succ_eq_map, List.map_cons, List.map_map]
      have hnext : cheb_next (chebT (k + 1)) (chebT k) = chebT (k + 2) := rfl
      simp only [cheb_loop, hnext]
      rw [ih (k + 1)]
      congr 1
      exact List.map_congr_left (fun j _ => by
        simp only [Function.comp_apply]
        congr 1
        omega)

theorem generate_eq_map (count : ℕ) :
    generate_chebyshev_polynomials count = (List.range count).map chebT := by
  match count with
  | 0 => rfl
  | 1 => rfl
  | 2 => rfl
  | n + 3 =>
      unfold generate_chebyshev_polynomials
      rw [if_neg (by omega), if_neg (by omega)]
      have h1 : n + 3 - 2 = n + 1 := by omega
      rw [h1]
      have h2 : cheb_loop (n + 1) [1] [0, 2] = cheb_loop (n + 1) (chebT 0) (chebT 1) := rfl
      rw [h2, cheb_loop_eq_map (n + 1) 0]
      have h3 : n + 3 = 2 + (n + 1) := by omega
      conv_rhs => rw [h3, List.range_add, List.map_append, List.map_map]
      rfl

theorem generate_length (count : ℕ) :
    (generate_chebyshev_polynomials count).length = count := by
  rw [generate_eq_map, List.length_map, List.length_range]

theorem generate_getD (count k : ℕ) (h : k < count) :
    (generate_chebyshev_polynomials count).getD k [] = chebT k := by
  rw [generate_eq_map, List.getD_eq_getElem _ _ (by simpa using h)]
  simp

theorem zip_sum_eq (w : List ℚ) : ∀ (polys : List (List ℚ)) (j : ℕ),
    w.length = polys.length →
    ((w.zip (polys.map (fun coeffs => coeffs.getD j 0))).map (fun cx => cx.1 * cx.2)).sum =
      ∑ i in Finset.range polys.length, w.getD i 0 * (polys.getD i []).getD j 0 := by
  induction w with
  | nil =>
      intro polys j h
      cases polys with
      | nil => simp
      | cons p ps => simp at h
  | cons c ws ih =>
      intro polys j h
      cases polys with
      | nil => simp at h
      | cons p ps =>
          simp only [List.map_cons, List.zip_cons_cons, List.sum_cons]
          rw [ih ps j (by simpa using h)]
          rw [List.length_cons, Finset.sum_range_succ']
          simp only [List.getD_cons_succ, List.getD_cons_zero]
          ring

theorem length_le_maxLen (polys : List (List ℚ)) :
    ∀ i, i < polys.length → (polys.getD i []).length ≤ maxLen polys := by
  induction polys with
  | nil => intro i h; simp at h
  | cons p ps ih =>
      intro i h
      have hm : maxLen (p :: ps) = max p.length (maxLen ps) := rfl
      cases i with
      | zero =>
          simp only [List.getD_cons_zero, hm]
          exact le_max_left _ _
      | succ i =>
          simp only [List.getD_cons_succ, hm]
          exact le_trans (ih i (by simpa using h)) (le_max_right _ _)

theorem getD_range_map (f : ℕ → ℚ) (n j : ℕ) (h : j < n) :
    ((List.range n).map f).getD j 0 = f j := by
  rw [List.getD_eq_getElem _ _ (by simpa using h)]
  simp

theorem linear_combination_eval (polys : List (List ℚ)) (w : List ℚ) (x : ℚ)
    (h : w.length = polys.length) :
    Option.map (fun p => poly_eval p x) (linear_combination polys w) =
      some (∑ i in Finset.range polys.length, w.getD i 0 * poly_eval (polys.getD i []) x) := by
  unfold linear_combination
  rw [if_pos h, Option.map_some']
  congr 1
  rw [poly_eval_eq_naive]
  unfold naive_eval
  rw [List.length_map, List.length_range]
  rw [Finset.sum_congr rfl (fun j hj => by
    rw [getD_range_map _ _ _ (Finset.mem_range.mp hj), zip_sum_eq w polys j h])]
  rw [Finset.sum_congr rfl (fun j _ =>
    Finset.sum_mul (Finset.range polys.length) (fun i => w.getD i 0 * (polys.getD i []).getD j 0) (x ^ j))]
  rw [Finset.sum_comm]
  refine Finset.sum_congr rfl (fun i hi => ?_)
  rw [poly_eval_eq_naive,
    ← naive_eval_extend (polys.getD i []) x (maxLen polys)
      (length_le_maxLen polys i (Finset.mem_range.mp hi)),
    Finset.mul_sum]
  exact Finset.sum_congr rfl (fun j _ => by ring)

theorem cheb_eval_def (c : List ℚ) (x : ℚ) :
    cheb_eval c x = clenshaw_eval c x [1] [0, 2] [0, 2] [-1] := rfl

/-! Claim theorems. -/

/-- C1: for every non-empty coefficient list c, scalar x, and recurrence
descriptor (basis_0, basis_1, alpha, beta as coefficient lists),
clenshaw_eval returns sum_k c_k * T_k(x), where T_0(x), T_1(x) are the
evaluated seeds and T_k(x) = alpha(x) * T_(k-1)(x) + beta(x) * T_(k-2)(x)
for k at least 2. -/
theorem clenshaw_eval_correct (c : List ℚ) (x : ℚ) (b0 b1 al bt : List ℚ)
    (h : c ≠ []) :
    clenshaw_eval c x b0 b1 al bt =
      some (∑ k in Finset.range c.length, c.getD k 0 *
        Tval (poly_eval b0 x) (poly_eval b1 x) (poly_eval al x) (poly_eval bt x) k) := by
  obtain ⟨c0, cs, rfl⟩ := List.exists_cons_of_ne_nil h
  exact clenshaw_eval_sum c0 cs x b0 b1 al bt

/-- Witness for C1 at c = [1, 2], x = 3, trivial monomial descriptor. -/
theorem clenshaw_eval_correct_witness :
    clenshaw_eval [1, 2] 3 [1] [0, 1] [0, 1] [0] =
      some (∑ k in Finset.range (([1, 2] : List ℚ).length), ([1, 2] : List ℚ).getD k 0 *
        Tval (poly_eval [1] 3) (poly_eval [0, 1] 3) (poly_eval [0, 1] 3) (poly_eval [0] 3) k) :=
  clenshaw_eval_correct [1, 2] 3 [1] [0, 1] [0, 1] [0] (by decide)

/-- C2: for every non-empty coefficient list c and scalar x, the fast
Clenshaw path cheb_eval c x agrees with the naive path that expands the
series via linear_combination over generate_chebyshev_polynomials (len c)
and evaluates the resulting polynomial with poly_eval. -/
theorem cheb_eval_eq_expand (c : List ℚ) (x : ℚ) (h : c ≠ []) :
    cheb_eval c x =
      Option.map (fun p => poly_eval p x)
        (linear_combination (generate_chebyshev_polynomials c.length) c) := by
  obtain ⟨c0, cs, rfl⟩ := List.exists_cons_of_ne_nil h
  rw [cheb_eval_def, clenshaw_eval_sum]
  rw [linear_combination_eval _ _ _ (by rw [generate_length])]
  congr 1
  rw [generate_length]
  refine Finset.sum_congr rfl (fun k hk => ?_)
  rw [generate_getD _ _ (Finset.mem_range.mp hk), chebT_eval]
  have e1 : poly_eval [1] x = 1 := by simp [poly_eval]
  have e2 : poly_eval [0, 2] x = 2 * x := by simp [poly_eval, mul_comm]
  have e3 : poly_eval [-1] x = -1 := by simp [poly_eval]
  rw [e1, e2, e3]

/-- Witness for C2 at c = [1, 2, 3], x = 4 (the pair used by the repository's
own test). -/
theorem cheb_eval_eq_expand_witness :
    cheb_eval [1, 2, 3] 4 =
      Option.map (fun p => poly_eval p 4)
        (linear_combination
          (generate_chebyshev_polynomials (([1, 2, 3] : List ℚ).length)) [1, 2, 3]) :=
  cheb_eval_eq_expand [1, 2, 3] 4 (by decide)

/-- C3 counterexample: on the empty coefficient vector, clenshaw_eval does
NOT complete without an indexing error: reading coefficients[0] fails
(modelled as none), refuting the n = 0 half of the claim. -/
theorem clenshaw_eval_empty_counterexample :
    clenshaw_eval ([] : List ℚ) 0 [1] [0, 1] [0, 1] [0] = none := rfl

/-- C3 amended: generate_chebyshev_polynomials 0 is empty,
generate_chebyshev_polynomials 1 is [[1]], clenshaw_eval on a one-element
coefficient vector completes without indexing error, but on the empty
coefficient vector it raises an indexing error reading coefficients[0]. -/
theorem clenshaw_small_inputs :
    generate_chebyshev_polynomials 0 = [] ∧
      generate_chebyshev_polynomials 1 = [[1]] ∧
      (∀ (x : ℚ) (b0 b1 al bt : List ℚ), clenshaw_eval [] x b0 b1 al bt = none) ∧
      ∀ (c0 x : ℚ) (b0 b1 al bt : List ℚ),
        (clenshaw_eval [c0] x b0 b1 al bt).isSome = true :=
  ⟨rfl, rfl, fun _ _ _ _ _ => rfl, fun _ _ _ _ _ _ => rfl⟩

/-- C4: generate_chebyshev_polynomials N has exactly N entries, and entry k
is unchanged when N grows to N + 1 (stability of the generated basis). -/
theorem generate_stable (N : ℕ) :
    (generate_chebyshev_polynomials N).length = N ∧
      ∀ k, k < N →
        (generate_chebyshev_polynomials N).getD k [] =
          (generate_chebyshev_polynomials (N + 1)).getD k [] :=
  ⟨generate_length N, fun k hk => by
    rw [generate_getD N k hk, generate_getD (N + 1) k (by omega)]⟩

/-- Witness for C4 at N = 3, k = 1. -/
theorem generate_stable_witness :
    (generate_chebyshev_polynomials 3).length = 3 ∧
      (generate_chebyshev_polynomials 3).getD 1 [] =
        (generate_chebyshev_polynomials 4).getD 1 [] :=
  ⟨(generate_stable 3).1, (generate_stable 3).2 1 (by decide)⟩

/-- C5: the first five generated Chebyshev polynomials are exactly
[1], [0,2], [-1,0,4], [0,-4,0,8], [1,0,-12,0,16]. -/
theorem generate_five :
    generate_chebyshev_polynomials 5 =
      [[1], [0, 2], [-1, 0, 4], [0, -4, 0, 8], [1, 0, -12, 0, 16]] := by
  norm_num [generate_chebyshev_polynomials, cheb_loop, cheb_next, zipLongestWith]

/-- C6: with the trivial descriptor T_0 = [1], T_1 = [0,1], alpha = [0,1],
beta = [0], clenshaw_eval on a non-empty coefficient list reduces exactly to
poly_eval on the same coefficients read as monomial coefficients. -/
theorem clenshaw_trivial_descriptor (c : List ℚ) (x : ℚ) (h : c ≠ []) :
    clenshaw_eval c x [1] [0, 1] [0, 1] [0] = some (poly_eval c x) := by
  obtain ⟨c0, cs, rfl⟩ := List.exists_cons_of_ne_nil h
  rw [clenshaw_eval_sum]
  congr 1
  have e1 : poly_eval [1] x = 1 := by simp [poly_eval]
  have e2 : poly_eval [0, 1] x = x := by simp [poly_eval]
  have e3 : poly_eval [0] x = 0 := by simp [poly_eval]
  rw [e1, e2, e3, poly_eval_eq_naive]
  unfold naive_eval
  exact (Finset.sum_congr rfl (fun k _ => by rw [Tval_pow])).symm

/-- Witness for C6 at c = [1, 2, 3, 4], x = 3 (the pair used by the
repository's own test). -/
theorem clenshaw_trivial_descriptor_witness :
    clenshaw_eval [1, 2, 3, 4] 3 [1] [0, 1] [0, 1] [0] =
      some (poly_eval [1, 2, 3, 4] 3) :=
  clenshaw_trivial_descriptor [1, 2, 3, 4] 3 (by decide)

/-- C7: with equal-length inputs, linear_combination returns the polynomial
whose coefficient at each degree index j (up to the longest input length) is
sum_i weights_i * polys_i_j, missing indices read as 0. -/
theorem linear_combination_spec (polys : List (List ℚ)) (w : List ℚ)
    (h : w.length = polys.length) :
    linear_combination polys w =
      some ((List.range (maxLen polys)).map (fun j =>
        ∑ i in Finset.range polys.length, w.getD i 0 * (polys.getD i []).getD j 0)) := by
  unfold linear_combination
  rw [if_pos h]
  congr 1
  exact List.map_congr_left (fun j _ => zip_sum_eq w polys j h)

/-- Witness for C7 at polys = [[1], [0, 2]], weights = [3, 4]. -/
theorem linear_combination_spec_witness :
    linear_combination [[1], [0, 2]] [3, 4] =
      some ((List.range (maxLen [[1], [0, 2]])).map (fun j =>
        ∑ i in Finset.range (([[1], [0, 2]] : List (List ℚ)).length),
          ([3, 4] : List ℚ).getD i 0 * (([[1], [0, 2]] : List (List ℚ)).getD i []).getD j 0)) :=
  linear_combination_spec [[1], [0, 2]] [3, 4] (by decide)

/-- C8: poly_eval agrees with the direct naive sum of p_i * x^i for every
non-empty polynomial, and in particular poly_eval [1,2,3,4] 3 = 142. -/
theorem poly_eval_eq_naive_sum :
    (∀ (p : List ℚ) (x : ℚ), p ≠ [] → poly_eval p x = naive_eval p x) ∧
      poly_eval [1, 2, 3, 4] 3 = 142 :=
  ⟨fun p x _ => poly_eval_eq_naive p x, by norm_num [poly_eval]⟩

/-- Witness for C8 at p = [1, 2], x = 5. -/
theorem poly_eval_eq_naive_sum_witness :
    poly_eval [1, 2] 5 = naive_eval [1, 2] 5 :=
  poly_eval_eq_naive_sum.1 [1, 2] 5 (by decide)

/-- C9: linear_combination signals an invalid-argument error (the failed
assert, modelled as none) exactly when the weight and polynomial lists have
different lengths; with equal lengths it returns normally. -/
theorem linear_combination_error_iff (polys : List (List ℚ)) (w : List ℚ) :
    linear_combination polys w = none ↔ w.length ≠ polys.length := by
  unfold linear_combination
  split <;> simp_all

/-- C10: poly_eval on the empty coefficient list returns 0 for every x: the
Horner accumulator starts at 0 and the loop body never runs. -/
theorem poly_eval_empty_eq_zero (x : ℚ) : poly_eval [] x = 0 := rfl

end Chebyshev
